import Mathlib

/-!
Verification of the handle allocator in `src/deps/v8/src/handles.cc`
(`HandleScope::Extend`, `NumberOfHandles`, `DeleteExtensions`, `ZapRange`)
against its natural-language specification.

Embedding conventions: machine addresses are modelled in slot units as `Nat`;
a block is identified by the address of its first slot and spans
`[base, base + blockSize)`.  The block size (`kHandleBlockSize` in the source,
a compile-time constant) is an explicit parameter `bs` of every operation.
The scope-state struct (`next`, `limit`, `level`) is the record
`HandleScopeData`; `NULL` pointers are the address `0`.
-/

namespace Handles

/-- The process-wide scope state `v8::ImplementationUtilities::HandleScopeData`:
the cursor `next`, the current block bound `limit`, and the nesting `level`.
Initialised in the source as `{ NULL, NULL, 0 }`. -/
structure HandleScopeData where
  next : Nat
  limit : Nat
  level : Nat
deriving DecidableEq

/-- The block-pool side of the allocator (`HandleScopeImplementer`): the ordered
list of block base addresses, the single retained spare block, and the heap
allocator cursor.  The heap allocator is modelled as a bump allocator handing
out fresh, pairwise non-overlapping, non-adjacent block bases starting at
address 1 (a real heap allocator never returns two exactly adjacent arrays,
and never returns the null address). -/
structure HandleScopeImplementer where
  blocks : List Nat
  spare : Option Nat
  freshCounter : Nat
deriving DecidableEq

/-- The whole allocator state: scope state plus implementer, plus a flag
recording that `Utils::ReportApiFailure` has been invoked (fatal API misuse). -/
structure State where
  current : HandleScopeData
  impl : HandleScopeImplementer
  apiFailure : Bool
deriving DecidableEq

/-- The allocator state at process start: `current_ = { NULL, NULL, 0 }`,
no blocks, no spare. -/
def initState : State :=
  { current := { next := 0, limit := 0, level := 0 },
    impl := { blocks := [], spare := none, freshCounter := 1 },
    apiFailure := false }

/-- Modelled from the spec (the body of `HandleScopeImplementer::GetSpareOrNewBlock`
is not under src/): prefer the single retained spare block (no allocation);
if none, allocate a fresh block from the heap. -/
def GetSpareOrNewBlock (bs : Nat) (impl : HandleScopeImplementer) :
    Nat × HandleScopeImplementer :=
  match impl.spare with
  | some block => (block, { impl with spare := none })
  | none => (impl.freshCounter, { impl with freshCounter := impl.freshCounter + bs + 1 })

/-- `HandleScope::Extend` (handles.cc, lines 60–94).  Returns the fresh slot
address, or `none` for the source's `NULL` on the fatal-API-misuse path.
The source's entry assertion is `result == current_.limit`. -/
def Extend (bs : Nat) (st : State) : Option Nat × State :=
  let result := st.current.next
  if st.current.level = 0 then
    (none, { st with apiFailure := true })
  else
    let st1 :=
      match st.impl.blocks.getLast? with
      | some lastBlock =>
          let lim := lastBlock + bs
          if st.current.limit ≠ lim then
            { st with current := { st.current with limit := lim } }
          else st
      | none => st
    if result = st1.current.limit then
      let p := GetSpareOrNewBlock bs st1.impl
      let impl2 := { p.2 with blocks := p.2.blocks ++ [p.1] }
      (some p.1,
       { st1 with current := { st1.current with limit := p.1 + bs }, impl := impl2 })
    else
      (some result, st1)

/-- `HandleScope::NumberOfHandles` (handles.cc, lines 52–57).  A pure read of
the state — the embedding gives it type `State → Int`, so by construction it
mutates neither the scope state nor the block pool. -/
def NumberOfHandles (bs : Nat) (st : State) : Int :=
  match st.impl.blocks.getLast? with
  | none => 0
  | some lastBlock =>
      ((st.impl.blocks.length : Int) - 1) * (bs : Int)
        + ((st.current.next : Int) - (lastBlock : Int))

/-- Modelled from the spec (the body of `HandleScopeImplementer::DeleteExtensions`
is not under src/; §4.2 of the spec): iterate the pool backward from its end
down to — but not including — the block containing the recorded entry limit;
each removed block becomes the retained spare, the previously retained one
being freed, so exactly one removed block is retained and the rest freed.
The argument list is the reversed pool; the result is the reversed remaining
pool, the spare, and the list of freed block bases in deallocation order. -/
def delExtRev (bs prevLimit : Nat) :
    List Nat → Option Nat → List Nat × Option Nat × List Nat
  | [], spare => ([], spare, [])
  | block :: rest, spare =>
      if block ≤ prevLimit ∧ prevLimit ≤ block + bs then
        (block :: rest, spare, [])
      else
        let r := delExtRev bs prevLimit rest (some block)
        (r.1, r.2.1, spare.toList ++ r.2.2)

/-- Modelled from the spec: `HandleScopeImplementer::DeleteExtensions(prev_limit)`;
returns the updated implementer and the freed block bases. -/
def implDeleteExtensions (bs prevLimit : Nat) (impl : HandleScopeImplementer) :
    HandleScopeImplementer × List Nat :=
  let r := delExtRev bs prevLimit impl.blocks.reverse impl.spare
  ({ impl with blocks := r.1.reverse, spare := r.2.1 }, r.2.2)

/-- `HandleScope::DeleteExtensions` (handles.cc, lines 97–99): delegates to the
implementer with the current (already restored) `limit`. -/
def DeleteExtensions (bs : Nat) (st : State) : State × List Nat :=
  let r := implDeleteExtensions bs st.current.limit st.impl
  ({ st with impl := r.1 }, r.2)

/-- Modelled from the spec (the constant lives outside src/): the fixed
sentinel bit pattern written into reclaimed slots, distinguishable from any
valid heap address. -/
def kHandleZapValue : Nat := 0xbaddeadbaddead

/-- `HandleScope::ZapRange` (handles.cc, lines 102–107): memory is modelled as
a map from slot addresses to stored values; the loop
`for (p = start; p != end; p++) *p = kHandleZapValue` terminates exactly when
`start ≤ end` (the source asserts `end - start <= kHandleBlockSize`). -/
def ZapRange (start e : Nat) (mem : Nat → Nat) : Nat → Nat :=
  if h : start < e then
    ZapRange (start + 1) e (fun a => if a = start then kHandleZapValue else mem a)
  else mem
termination_by e - start
decreasing_by omega

/-- The assertion `ASSERT(limit - current_.next < kHandleBlockSize)` executed
in the spare-room-reuse branch of `Extend` (handles.cc, line 79), with its
branch guards as premises: whenever the pool's last block exists and the
recorded `limit` differs from its true end, the advanced limit minus `next`
must be below the block size. -/
def extendReuseAssertHolds (bs : Nat) (st : State) : Prop :=
  ∀ lastBlock, st.impl.blocks.getLast? = some lastBlock →
    st.current.limit ≠ lastBlock + bs →
    (lastBlock + bs) - st.current.next < bs

/-- The assertion `ASSERT(end - start <= kHandleBlockSize)` at the top of
`ZapRange` (handles.cc, line 103). -/
def zapRangeAssertHolds (bs start e : Nat) : Prop :=
  e - start ≤ bs

/-- Modelled from the spec (the `HandleScope` constructor is not under src/):
opening a scope snapshots the scope state and increments the nesting level. -/
def openScope (st : State) : HandleScopeData × State :=
  (st.current,
   { st with current := { st.current with level := st.current.level + 1 } })

/-- Modelled from the spec (the `HandleScope` destructor is not under src/):
closing a scope restores `level`, then — when the limit changed during the
scope — restores `limit` and runs `HandleScope::DeleteExtensions` to release
the blocks appended during the scope, and finally restores `next`. -/
def closeScope (bs : Nat) (previous : HandleScopeData) (st : State) : State :=
  let st1 := { st with current := { st.current with level := previous.level } }
  let st2 :=
    if st1.current.limit ≠ previous.limit then
      (DeleteExtensions bs
        { st1 with current := { st1.current with limit := previous.limit } }).1
    else st1
  { st2 with current := { st2.current with next := previous.next } }

/-- Modelled from the spec (`HandleScope::CreateHandle` is not under src/):
creating a handle consumes the cursor slot, calling `Extend` exactly when the
cursor has reached the recorded limit, then advances `next` past the slot. -/
def CreateHandle (bs : Nat) (st : State) : Option Nat × State :=
  let cur := st.current.next
  if cur = st.current.limit then
    match Extend bs st with
    | (none, st2) => (none, st2)
    | (some slot, st2) =>
        (some slot, { st2 with current := { st2.current with next := slot + 1 } })
  else
    (some cur, { st with current := { st.current with next := cur + 1 } })

/-- Well-nested allocator programs: the LIFO discipline of scope opens and
closes is the tree shape; `handle` creates one handle in the current scope. -/
inductive Prog where
  | done : Prog
  | handle : Prog → Prog
  | scope : Prog → Prog → Prog

/-- Run a well-nested program: `scope body rest` opens a scope, runs `body`,
closes the scope (restore plus `DeleteExtensions`), then runs `rest`. -/
def run (bs : Nat) : Prog → State → State
  | .done, st => st
  | .handle rest, st => run bs rest (CreateHandle bs st).2
  | .scope body rest, st =>
      let p := openScope st
      run bs rest (closeScope bs p.1 (run bs body p.2))

/-- Addresses handed out by the modelled heap allocator: the arithmetic
progression starting at 1 with stride `bs + 1`, so distinct blocks are
disjoint and non-adjacent and no block starts at the null address. -/
def goodAddr (bs a : Nat) : Prop := ∃ k, a = 1 + k * (bs + 1)

/-- The reachable-state invariant of the allocator: block bases are distinct
well-formed heap addresses below the allocation cursor, the retained spare is
not in the pool, and the scope state points into the pool's last block (or is
null when the pool is empty). -/
structure Inv (bs : Nat) (st : State) : Prop where
  bsPos : 0 < bs
  blocksGood : ∀ b ∈ st.impl.blocks, goodAddr bs b ∧ b < st.impl.freshCounter
  spareGood : ∀ b ∈ st.impl.spare.toList, goodAddr bs b ∧ b < st.impl.freshCounter
  spareNotIn : ∀ b ∈ st.impl.spare.toList, b ∉ st.impl.blocks
  freshGood : goodAddr bs st.impl.freshCounter
  nodup : st.impl.blocks.Nodup
  emptyState : st.impl.blocks = [] → st.current.limit = 0 ∧ st.current.next = 0
  lastState : ∀ lastBlock, st.impl.blocks.getLast? = some lastBlock →
    st.current.limit = lastBlock + bs ∧ lastBlock < st.current.next ∧
    st.current.next ≤ st.current.limit

theorem delExtRev_stop (bs prevLimit : Nat) (R : List Nat) (hd : Nat)
    (hhd : R.head? = some hd) (hc : hd ≤ prevLimit ∧ prevLimit ≤ hd + bs)
    (s : Option Nat) : delExtRev bs prevLimit R s = (R, s, []) := by
  cases R with
  | nil => simp at hhd
  | cons r R2 =>
    simp only [List.head?_cons, Option.some.injEq] at hhd
    subst hhd
    simp [delExtRev, hc]

theorem delExtRev_cons_removed (bs prevLimit b : Nat) (rest : List Nat)
    (s : Option Nat) (hb : ¬(b ≤ prevLimit ∧ prevLimit ≤ b + bs)) :
    delExtRev bs prevLimit (b :: rest) s =
      ((delExtRev bs prevLimit rest (some b)).1,
       (delExtRev bs prevLimit rest (some b)).2.1,
       s.toList ++ (delExtRev bs prevLimit rest (some b)).2.2) := by
  simp [delExtRev, hb]

theorem delExtRev_removeAll (bs prevLimit : Nat) (L : List Nat) :
    ∀ (R : List Nat) (s : Option Nat), L ≠ [] →
    (∀ x ∈ L, ¬(x ≤ prevLimit ∧ prevLimit ≤ x + bs)) →
    (∀ s2, delExtRev bs prevLimit R s2 = (R, s2, [])) →
    delExtRev bs prevLimit (L ++ R) s = (R, L.getLast?, s.toList ++ L.dropLast) := by
  induction L with
  | nil => intro R s h; exact absurd rfl h
  | cons b L2 ih =>
    intro R s _ hmem hstop
    have hb := hmem b (by simp)
    rw [List.cons_append, delExtRev_cons_removed bs prevLimit b (L2 ++ R) s hb]
    cases L2 with
    | nil =>
      simp only [List.nil_append, hstop (some b)]
      simp
    | cons c L3 =>
      rw [ih R (some b) (by simp)
        (fun x hx => hmem x (List.mem_cons_of_mem b hx)) hstop]
      simp [List.dropLast]

/-- C5: given the limit recorded at a scope's entry (the true end of the
entry-time last block), `DeleteExtensions` removes from the pool exactly the
blocks appended after that entry point; of the removed blocks exactly one
(the bottom-most) is retained as the spare, the rest — together with the
previously retained spare — are freed, the entry-time blocks stay in the pool,
and the scope state is untouched. -/
theorem deleteExtensions_releases_extensions (bs : Nat) (st : State)
    (initial t : List Nat) (h0 lastInit : Nat)
    (hblocks : st.impl.blocks = initial ++ h0 :: t)
    (hlast : initial.getLast? = some lastInit)
    (hlimit : st.current.limit = lastInit + bs)
    (hsep : ∀ x ∈ h0 :: t, ¬(x ≤ st.current.limit ∧ st.current.limit ≤ x + bs)) :
    (DeleteExtensions bs st).1.impl.blocks = initial ∧
    (DeleteExtensions bs st).1.impl.spare = some h0 ∧
    (DeleteExtensions bs st).2 = st.impl.spare.toList ++ t.reverse ∧
    (DeleteExtensions bs st).1.current = st.current := by
  have hrev : st.impl.blocks.reverse = (h0 :: t).reverse ++ initial.reverse := by
    rw [hblocks, List.reverse_append]
  have hstop : ∀ s2, delExtRev bs st.current.limit initial.reverse s2 =
      (initial.reverse, s2, []) := by
    intro s2
    refine delExtRev_stop bs st.current.limit initial.reverse lastInit ?_ ?_ s2
    · rw [List.head?_reverse]; exact hlast
    · omega
  have hmain := delExtRev_removeAll bs st.current.limit (h0 :: t).reverse
    initial.reverse st.impl.spare (by simp)
    (by intro x hx; exact hsep x (List.mem_reverse.mp hx)) hstop
  simp only [DeleteExtensions, implDeleteExtensions, hrev, hmain]
  simp [List.reverse_cons, List.getLast?_concat, List.dropLast_concat]

theorem deleteExtensions_releases_extensions_witness :
    (DeleteExtensions 4
        { current := { next := 3, limit := 5, level := 1 },
          impl := { blocks := [1, 6, 11], spare := some 16, freshCounter := 21 },
          apiFailure := false }).1.impl.blocks = [1] ∧
    (DeleteExtensions 4
        { current := { next := 3, limit := 5, level := 1 },
          impl := { blocks := [1, 6, 11], spare := some 16, freshCounter := 21 },
          apiFailure := false }).1.impl.spare = some 6 ∧
    (DeleteExtensions 4
        { current := { next := 3, limit := 5, level := 1 },
          impl := { blocks := [1, 6, 11], spare := some 16, freshCounter := 21 },
          apiFailure := false }).2 = [16, 11] ∧
    (DeleteExtensions 4
        { current := { next := 3, limit := 5, level := 1 },
          impl := { blocks := [1, 6, 11], spare := some 16, freshCounter := 21 },
          apiFailure := false }).1.current = { next := 3, limit := 5, level := 1 } := by
  have h := deleteExtensions_releases_extensions 4
    { current := { next := 3, limit := 5, level := 1 },
      impl := { blocks := [1, 6, 11], spare := some 16, freshCounter := 21 },
      apiFailure := false }
    [1] [11] 6 1 rfl rfl rfl (by decide)
  simpa using h

/-- C1: when `level == 0`, `Extend` reports a fatal API-misuse error
(`Utils::ReportApiFailure`, recorded in the `apiFailure` flag) and returns
`NULL` without touching the scope state or the block pool — in particular no
slot is allocated. -/
theorem extend_level_zero_fatal (bs : Nat) (st : State)
    (h : st.current.level = 0) :
    Extend bs st = (none, { st with apiFailure := true }) := by
  simp [Extend, h]

theorem extend_level_zero_fatal_witness :
    initState.current.level = 0 ∧
      Extend 4 initState = (none, { initState with apiFailure := true }) :=
  ⟨rfl, extend_level_zero_fatal 4 initState rfl⟩

/-- C2: with an open scope, a non-empty pool, and a recorded `limit` that
differs from the true end of the last block, `Extend` advances `limit` to the
true block end and returns the entry value of `next`; the block pool, the
spare, and the allocation cursor are untouched (no append, no allocation).
The hypothesis `next = limit` is the source's entry assertion. -/
theorem extend_reuse_spare_room (bs : Nat) (st : State) (lastBlock : Nat)
    (hlvl : st.current.level ≠ 0)
    (hlast : st.impl.blocks.getLast? = some lastBlock)
    (hne : st.current.limit ≠ lastBlock + bs)
    (hassert : st.current.next = st.current.limit) :
    Extend bs st =
      (some st.current.next,
       { st with current := { st.current with limit := lastBlock + bs } }) := by
  have hres : st.current.next ≠ lastBlock + bs := by rw [hassert]; exact hne
  simp [Extend, hlvl, hlast, hne, hres]

theorem extend_reuse_spare_room_witness :
    Extend 4 { current := { next := 3, limit := 3, level := 1 },
               impl := { blocks := [1], spare := none, freshCounter := 6 },
               apiFailure := false } =
      (some 3,
       { current := { next := 3, limit := 5, level := 1 },
         impl := { blocks := [1], spare := none, freshCounter := 6 },
         apiFailure := false }) :=
  extend_reuse_spare_room 4
    { current := { next := 3, limit := 3, level := 1 },
      impl := { blocks := [1], spare := none, freshCounter := 6 },
      apiFailure := false }
    1 (by decide) rfl (by decide) rfl

/-- C3: with an open scope and the cursor at the true end of the pool (the
pool is empty, or `limit` already is the last block's true end), `Extend`
obtains one block — the retained spare if available, otherwise a freshly
allocated one — appends exactly that block to the pool, sets `limit` one past
its last slot, and returns its first slot.  In the spare case the allocation
cursor is untouched (no allocation); in the fresh case it advances. -/
theorem extend_append_block (bs : Nat) (st : State)
    (hlvl : st.current.level ≠ 0)
    (hassert : st.current.next = st.current.limit)
    (hend : st.impl.blocks = [] ∨
      ∃ lastBlock, st.impl.blocks.getLast? = some lastBlock ∧
        st.current.limit = lastBlock + bs) :
    (∀ s, st.impl.spare = some s →
      Extend bs st =
        (some s,
         { st with
            current := { st.current with limit := s + bs },
            impl := { st.impl with blocks := st.impl.blocks ++ [s], spare := none } })) ∧
    (st.impl.spare = none →
      Extend bs st =
        (some st.impl.freshCounter,
         { st with
            current := { st.current with limit := st.impl.freshCounter + bs },
            impl := { st.impl with
                        blocks := st.impl.blocks ++ [st.impl.freshCounter],
                        freshCounter := st.impl.freshCounter + bs + 1 } })) := by
  constructor
  · intro s hs
    rcases hend with hnil | ⟨lastBlock, hlast, hlim⟩
    · have hlast : st.impl.blocks.getLast? = none := by simp [hnil]
      simp [Extend, hlvl, hlast, hassert, GetSpareOrNewBlock, hs]
    · simp [Extend, hlvl, hlast, hlim, hassert, GetSpareOrNewBlock, hs]
  · intro hs
    rcases hend with hnil | ⟨lastBlock, hlast, hlim⟩
    · have hlast : st.impl.blocks.getLast? = none := by simp [hnil]
      simp [Extend, hlvl, hlast, hassert, GetSpareOrNewBlock, hs]
    · simp [Extend, hlvl, hlast, hlim, hassert, GetSpareOrNewBlock, hs]

theorem extend_append_block_witness :
    Extend 4 { current := { next := 5, limit := 5, level := 2 },
               impl := { blocks := [1], spare := some 6, freshCounter := 11 },
               apiFailure := false } =
      (some 6,
       { current := { next := 5, limit := 10, level := 2 },
         impl := { blocks := [1, 6], spare := none, freshCounter := 11 },
         apiFailure := false }) :=
  (extend_append_block 4
    { current := { next := 5, limit := 5, level := 2 },
      impl := { blocks := [1], spare := some 6, freshCounter := 11 },
      apiFailure := false }
    (by decide) rfl (Or.inr ⟨1, rfl, rfl⟩)).1 6 rfl

/-- C9: every branch of `Extend` (spare-room reuse, block append, and the
`level == 0` error path) leaves the scope-state fields `next` and `level`
unchanged; only `limit` and the block pool may be modified. -/
theorem extend_preserves_next_level (bs : Nat) (st : State) :
    (Extend bs st).2.current.next = st.current.next ∧
    (Extend bs st).2.current.level = st.current.level := by
  unfold Extend GetSpareOrNewBlock
  dsimp only
  split
  · exact ⟨rfl, rfl⟩
  · repeat' split
    all_goals exact ⟨rfl, rfl⟩

theorem zapRange_eq_of_ge (start e : Nat) (mem : Nat → Nat) (h : e ≤ start) :
    ZapRange start e mem = mem := by
  unfold ZapRange
  simp [Nat.not_lt.mpr h]

theorem zapRange_pointwise (start e : Nat) (mem : Nat → Nat) (a : Nat) :
    ZapRange start e mem a =
      if start ≤ a ∧ a < e then kHandleZapValue else mem a := by
  by_cases hlt : start < e
  · rw [ZapRange]
    simp only [hlt, dif_pos]
    rw [zapRange_pointwise (start + 1) e _ a]
    by_cases hae : start + 1 ≤ a ∧ a < e
    · simp [hae, show start ≤ a ∧ a < e by omega]
    · by_cases has : a = start
      · subst has
        simp [hae, hlt]
      · have hcond : ¬(start ≤ a ∧ a < e) := by
          intro hc
          exact hae ⟨by omega, hc.2⟩
        simp [hae, hcond, has]
  · rw [zapRange_eq_of_ge start e mem (by omega)]
    have : ¬(start ≤ a ∧ a < e) := by omega
    simp [this]
termination_by e - start
decreasing_by omega

/-- C7: for `start ≤ end` spanning at most one block, `ZapRange` overwrites
every slot in `[start, end)` with the handle zap value, alters no location
outside that range, and with `start = end` writes nothing at all. -/
theorem zapRange_spec (bs start e : Nat) (mem : Nat → Nat)
    (hle : start ≤ e) (hbs : e - start ≤ bs) :
    (∀ a, start ≤ a → a < e → ZapRange start e mem a = kHandleZapValue) ∧
    (∀ a, a < start ∨ e ≤ a → ZapRange start e mem a = mem a) ∧
    (start = e → ZapRange start e mem = mem) := by
  refine ⟨?_, ?_, ?_⟩
  · intro a h1 h2
    rw [zapRange_pointwise]
    simp [h1, h2]
  · intro a h
    rw [zapRange_pointwise]
    have : ¬(start ≤ a ∧ a < e) := by omega
    simp [this]
  · intro h
    exact zapRange_eq_of_ge start e mem (by omega)

theorem zapRange_spec_witness :
    (2 : Nat) ≤ 4 ∧ (4 : Nat) - 2 ≤ 4 ∧
      ZapRange 2 4 (fun _ => 7) 3 = kHandleZapValue ∧
      ZapRange 2 4 (fun _ => 7) 5 = 7 := by
  have h := zapRange_spec 4 2 4 (fun _ => 7) (by decide) (by decide)
  exact ⟨by decide, by decide, h.1 3 (by decide) (by decide),
    h.2.1 5 (Or.inr (by decide))⟩

/-- C10 counterexample: the entry precondition `next = limit` together with
`level > 0` does not imply the reuse-branch assertion — a state whose cursor
sits at address 0 while the pool's last block starts at 5 satisfies both
premises yet violates `limit - next < kHandleBlockSize` for block size 4. -/
theorem extend_assert_counterexample :
    let st : State :=
      { current := { next := 0, limit := 0, level := 1 },
        impl := { blocks := [5], spare := none, freshCounter := 20 },
        apiFailure := false }
    st.current.next = st.current.limit ∧ 0 < st.current.level ∧
      ¬ extendReuseAssertHolds 4 st := by
  refine ⟨rfl, by decide, ?_⟩
  intro h
  exact absurd (h 5 rfl (by decide)) (by decide)

/-- C10 (amended): under the entry precondition `next = limit`, an open scope,
a positive block size, and the allocator invariant that `next` lies strictly
past the start of the last block, the reuse-branch assertion of `Extend`
holds; and every whole-block range satisfies `ZapRange`'s asserted
precondition `end - start ≤ kHandleBlockSize`. -/
theorem extend_assert_holds (bs : Nat) (st : State)
    (hbs : 0 < bs)
    (hassert : st.current.next = st.current.limit)
    (hlvl : 0 < st.current.level)
    (hinside : ∀ lastBlock, st.impl.blocks.getLast? = some lastBlock →
      lastBlock < st.current.next) :
    extendReuseAssertHolds bs st ∧
      ∀ base, zapRangeAssertHolds bs base (base + bs) := by
  constructor
  · intro lastBlock hlast hne
    have := hinside lastBlock hlast
    omega
  · intro base
    unfold zapRangeAssertHolds
    omega

theorem extend_assert_holds_witness :
    extendReuseAssertHolds 4
        { current := { next := 3, limit := 3, level := 1 },
          impl := { blocks := [1], spare := none, freshCounter := 6 },
          apiFailure := false } ∧
      ∀ base, zapRangeAssertHolds 4 base (base + 4) :=
  extend_assert_holds 4
    { current := { next := 3, limit := 3, level := 1 },
      impl := { blocks := [1], spare := none, freshCounter := 6 },
      apiFailure := false }
    (by decide) rfl (by decide)
    (by intro lastBlock hlast; simp at hlast; subst hlast; decide)

/-- C4: `NumberOfHandles` returns 0 on an empty pool, and otherwise
`(number of blocks - 1) * block size + (next - start of last block)`; being a
plain function of the state, it mutates neither the scope state nor the
block pool. -/
theorem numberOfHandles_spec (bs : Nat) (st : State) :
    (st.impl.blocks = [] → NumberOfHandles bs st = 0) ∧
    (∀ lastBlock, st.impl.blocks.getLast? = some lastBlock →
      NumberOfHandles bs st =
        ((st.impl.blocks.length : Int) - 1) * (bs : Int)
          + ((st.current.next : Int) - (lastBlock : Int))) := by
  constructor
  · intro h
    simp [NumberOfHandles, h]
  · intro lastBlock h
    simp [NumberOfHandles, h]

theorem numberOfHandles_spec_witness :
    NumberOfHandles 4
        { current := { next := 8, limit := 10, level := 1 },
          impl := { blocks := [1, 6], spare := none, freshCounter := 11 },
          apiFailure := false } = 6 := by
  have h := (numberOfHandles_spec 4
    { current := { next := 8, limit := 10, level := 1 },
      impl := { blocks := [1, 6], spare := none, freshCounter := 11 },
      apiFailure := false }).2 6 (by decide)
  rw [h]
  decide

theorem goodAddr_separated (bs x y : Nat) (hx : goodAddr bs x)
    (hy : goodAddr bs y) (hne : x ≠ y) : x + bs < y ∨ y + bs < x := by
  obtain ⟨a, rfl⟩ := hx
  obtain ⟨b, rfl⟩ := hy
  rcases Nat.lt_trichotomy a b with h | h | h
  · left
    have h2 : (a + 1) * (bs + 1) ≤ b * (bs + 1) :=
      Nat.mul_le_mul h (Nat.le_refl (bs + 1))
    rw [Nat.succ_mul] at h2
    omega
  · subst h; exact absurd rfl hne
  · right
    have h2 : (b + 1) * (bs + 1) ≤ a * (bs + 1) :=
      Nat.mul_le_mul h (Nat.le_refl (bs + 1))
    rw [Nat.succ_mul] at h2
    omega

theorem openScope_inv (bs : Nat) (st : State) (hInv : Inv bs st) :
    Inv bs (openScope st).2 :=
  ⟨hInv.bsPos, hInv.blocksGood, hInv.spareGood, hInv.spareNotIn, hInv.freshGood,
   hInv.nodup, hInv.emptyState, hInv.lastState⟩

theorem inv_after_append (bs : Nat) (st : State) (b0 fc2 : Nat)
    (hInv : Inv bs st) (hb0 : goodAddr bs b0) (hb0notin : b0 ∉ st.impl.blocks)
    (hb0lt : b0 < fc2) (hfcle : st.impl.freshCounter ≤ fc2)
    (hfc2 : goodAddr bs fc2) :
    Inv bs
      { current := { next := b0 + 1, limit := b0 + bs, level := st.current.level },
        impl := { blocks := st.impl.blocks ++ [b0], spare := none,
                  freshCounter := fc2 },
        apiFailure := st.apiFailure } := by
  refine ⟨hInv.bsPos, ?_, ?_, ?_, hfc2, ?_, ?_, ?_⟩
  · intro b hb
    rcases List.mem_append.mp hb with h | h
    · obtain ⟨hg, hlt⟩ := hInv.blocksGood b h
      exact ⟨hg, lt_of_lt_of_le hlt hfcle⟩
    · simp at h
      subst h
      exact ⟨hb0, hb0lt⟩
  · intro b hb; simp at hb
  · intro b hb; simp at hb
  · rw [List.nodup_append]
    refine ⟨hInv.nodup, List.nodup_singleton b0, ?_⟩
    intro a ha hmem
    simp at hmem
    subst hmem
    exact hb0notin ha
  · intro h; simp at h
  · intro lastBlock hl
    rw [List.getLast?_concat] at hl
    injection hl with hl
    subst hl
    refine ⟨rfl, Nat.lt_succ_self b0, ?_⟩
    show b0 + 1 ≤ b0 + bs
    have := hInv.bsPos
    omega

theorem createHandle_preserves (bs : Nat) (st : State)
    (hInv : Inv bs st) (hlvl : 0 < st.current.level) :
    Inv bs (CreateHandle bs st).2 ∧
    (CreateHandle bs st).2.current.level = st.current.level ∧
    (∃ extra, (CreateHandle bs st).2.impl.blocks = st.impl.blocks ++ extra) ∧
    st.impl.freshCounter ≤ (CreateHandle bs st).2.impl.freshCounter := by
  have hlvl0 : st.current.level ≠ 0 := Nat.not_eq_zero_of_lt hlvl
  by_cases hc : st.current.next = st.current.limit
  case neg =>
    have hstate : (CreateHandle bs st).2 =
        { st with current := { st.current with next := st.current.next + 1 } } := by
      simp [CreateHandle, hc]
    cases hlb : st.impl.blocks.getLast? with
    | none =>
      have hnil : st.impl.blocks = [] := List.getLast?_eq_none_iff.mp hlb
      obtain ⟨h1, h2⟩ := hInv.emptyState hnil
      exact absurd (h2.trans h1.symm) hc
    | some lastBlock =>
      obtain ⟨hl1, hl2, hl3⟩ := hInv.lastState lastBlock hlb
      rw [hstate]
      refine ⟨⟨hInv.bsPos, hInv.blocksGood, hInv.spareGood, hInv.spareNotIn,
        hInv.freshGood, hInv.nodup, ?_, ?_⟩, rfl, ⟨[], by simp⟩, le_refl _⟩
      · intro h
        rw [h] at hlb
        simp at hlb
      · intro l hl
        rw [hlb] at hl
        injection hl with hl
        subst hl
        refine ⟨hl1, ?_, ?_⟩
        · show _ < st.current.next + 1
          omega
        · show st.current.next + 1 ≤ st.current.limit
          omega
  case pos =>
    cases hlb : st.impl.blocks.getLast? with
    | none =>
      have hnil : st.impl.blocks = [] := List.getLast?_eq_none_iff.mp hlb
      cases hsp : st.impl.spare with
      | some s =>
        have hstate : (CreateHandle bs st).2 =
            { current := { next := s + 1, limit := s + bs,
                           level := st.current.level },
              impl := { blocks := st.impl.blocks ++ [s], spare := none,
                        freshCounter := st.impl.freshCounter },
              apiFailure := st.apiFailure } := by
          simp [CreateHandle, hc, Extend, hlvl0, hlb, GetSpareOrNewBlock, hsp, hnil]
        rw [hstate]
        have hsg := hInv.spareGood s (by simp [hsp])
        refine ⟨inv_after_append bs st s st.impl.freshCounter hInv hsg.1
          (hInv.spareNotIn s (by simp [hsp])) hsg.2 (le_refl _) hInv.freshGood,
          rfl, ⟨[s], rfl⟩, le_refl _⟩
      | none =>
        have hstate : (CreateHandle bs st).2 =
            { current := { next := st.impl.freshCounter + 1,
                           limit := st.impl.freshCounter + bs,
                           level := st.current.level },
              impl := { blocks := st.impl.blocks ++ [st.impl.freshCounter],
                        spare := none,
                        freshCounter := st.impl.freshCounter + bs + 1 },
              apiFailure := st.apiFailure } := by
          simp [CreateHandle, hc, Extend, hlvl0, hlb, GetSpareOrNewBlock, hsp, hnil]
        rw [hstate]
        have hfg : goodAddr bs (st.impl.freshCounter + bs + 1) := by
          obtain ⟨k, hk⟩ := hInv.freshGood
          exact ⟨k + 1, by rw [Nat.succ_mul]; omega⟩
        refine ⟨inv_after_append bs st st.impl.freshCounter
          (st.impl.freshCounter + bs + 1) hInv hInv.freshGood ?_ (by omega)
          (by omega) hfg, rfl, ⟨[st.impl.freshCounter], rfl⟩,
          by show st.impl.freshCounter ≤ st.impl.freshCounter + bs + 1; omega⟩
        intro hmem
        exact absurd (hInv.blocksGood _ hmem).2 (lt_irrefl _)
    | some lastBlock =>
      obtain ⟨hl1, hl2, hl3⟩ := hInv.lastState lastBlock hlb
      cases hsp : st.impl.spare with
      | some s =>
        have hstate : (CreateHandle bs st).2 =
            { current := { next := s + 1, limit := s + bs,
                           level := st.current.level },
              impl := { blocks := st.impl.blocks ++ [s], spare := none,
                        freshCounter := st.impl.freshCounter },
              apiFailure := st.apiFailure } := by
          simp [CreateHandle, hc, Extend, hlvl0, hlb, hl1, GetSpareOrNewBlock, hsp]
        rw [hstate]
        have hsg := hInv.spareGood s (by simp [hsp])
        refine ⟨inv_after_append bs st s st.impl.freshCounter hInv hsg.1
          (hInv.spareNotIn s (by simp [hsp])) hsg.2 (le_refl _) hInv.freshGood,
          rfl, ⟨[s], rfl⟩, le_refl _⟩
      | none =>
        have hstate : (CreateHandle bs st).2 =
            { current := { next := st.impl.freshCounter + 1,
                           limit := st.impl.freshCounter + bs,
                           level := st.current.level },
              impl := { blocks := st.impl.blocks ++ [st.impl.freshCounter],
                        spare := none,
                        freshCounter := st.impl.freshCounter + bs + 1 },
              apiFailure := st.apiFailure } := by
          simp [CreateHandle, hc, Extend, hlvl0, hlb, hl1, GetSpareOrNewBlock, hsp]
        rw [hstate]
        have hfg : goodAddr bs (st.impl.freshCounter + bs + 1) := by
          obtain ⟨k, hk⟩ := hInv.freshGood
          exact ⟨k + 1, by rw [Nat.succ_mul]; omega⟩
        refine ⟨inv_after_append bs st st.impl.freshCounter
          (st.impl.freshCounter + bs + 1) hInv hInv.freshGood ?_ (by omega)
          (by omega) hfg, rfl, ⟨[st.impl.freshCounter], rfl⟩,
          by show st.impl.freshCounter ≤ st.impl.freshCounter + bs + 1; omega⟩
        intro hmem
        exact absurd (hInv.blocksGood _ hmem).2 (lt_irrefl _)

theorem delExtRev_stop_of_inv (bs : Nat) (st : State) (hInv : Inv bs st)
    (s2 : Option Nat) :
    delExtRev bs st.current.limit st.impl.blocks.reverse s2 =
      (st.impl.blocks.reverse, s2, []) := by
  cases hlb : st.impl.blocks.getLast? with
  | none =>
    have hnil : st.impl.blocks = [] := List.getLast?_eq_none_iff.mp hlb
    rw [hnil]
    simp [delExtRev]
  | some l0 =>
    obtain ⟨hl1, _, _⟩ := hInv.lastState l0 hlb
    refine delExtRev_stop bs st.current.limit _ l0 ?_ ?_ s2
    · rw [List.head?_reverse]; exact hlb
    · omega

theorem implDelete_restore (bs prevLimit : Nat) (impl : HandleScopeImplementer)
    (initial t2 : List Nat) (e : Nat)
    (hblocks : impl.blocks = initial ++ e :: t2)
    (hsep : ∀ x ∈ e :: t2, ¬(x ≤ prevLimit ∧ prevLimit ≤ x + bs))
    (hstop : ∀ s2, delExtRev bs prevLimit initial.reverse s2 =
      (initial.reverse, s2, [])) :
    (implDeleteExtensions bs prevLimit impl).1.blocks = initial ∧
    (implDeleteExtensions bs prevLimit impl).1.spare = some e ∧
    (implDeleteExtensions bs prevLimit impl).1.freshCounter = impl.freshCounter := by
  have hrev : impl.blocks.reverse = (e :: t2).reverse ++ initial.reverse := by
    rw [hblocks, List.reverse_append]
  have hmain := delExtRev_removeAll bs prevLimit (e :: t2).reverse initial.reverse
    impl.spare (by simp) (fun x hx => hsep x (List.mem_reverse.mp hx)) hstop
  simp only [implDeleteExtensions, hrev, hmain]
  simp [List.reverse_cons, List.getLast?_concat]

theorem closeScope_restore (bs : Nat) (st st2 : State) (extra : List Nat)
    (hInv : Inv bs st) (hInv2 : Inv bs st2)
    (hblocks : st2.impl.blocks = st.impl.blocks ++ extra) :
    (closeScope bs st.current st2).current = st.current ∧
    (closeScope bs st.current st2).impl.blocks = st.impl.blocks ∧
    st2.impl.freshCounter ≤ (closeScope bs st.current st2).impl.freshCounter ∧
    Inv bs (closeScope bs st.current st2) := by
  by_cases hlim : st2.current.limit = st.current.limit
  case pos =>
    have hextra : extra = [] := by
      cases hx : extra with
      | nil => rfl
      | cons e t2 =>
        exfalso
        have hne : (e :: t2) ≠ ([] : List Nat) := by simp
        have hlb2 : st2.impl.blocks.getLast? = (e :: t2).getLast? := by
          rw [hblocks, hx]
          exact List.getLast?_append_of_ne_nil st.impl.blocks hne
        cases hl : (e :: t2).getLast? with
        | none =>
          exact absurd (List.getLast?_eq_none_iff.mp hl) hne
        | some lastE =>
          rw [hl] at hlb2
          obtain ⟨h21, _, _⟩ := hInv2.lastState lastE hlb2
          cases hlb : st.impl.blocks.getLast? with
          | none =>
            have hnil : st.impl.blocks = [] := List.getLast?_eq_none_iff.mp hlb
            obtain ⟨h01, _⟩ := hInv.emptyState hnil
            have := hInv.bsPos
            omega
          | some l0 =>
            obtain ⟨h02, _, _⟩ := hInv.lastState l0 hlb
            have heq : lastE = l0 := by omega
            have hmemE : lastE ∈ (e :: t2) := List.mem_of_mem_getLast? hl
            have hmem0 : l0 ∈ st.impl.blocks := List.mem_of_mem_getLast? hlb
            have hdisj : st.impl.blocks.Disjoint (e :: t2) := by
              have hn := hInv2.nodup
              rw [hblocks, hx] at hn
              exact List.disjoint_of_nodup_append hn
            exact hdisj hmem0 (heq ▸ hmemE)
    subst hextra
    rw [List.append_nil] at hblocks
    have hclose : closeScope bs st.current st2 =
        { current := { next := st.current.next, limit := st2.current.limit,
                       level := st.current.level },
          impl := st2.impl,
          apiFailure := st2.apiFailure } := by
      simp only [closeScope]
      split
      · rename_i h
        exact absurd hlim (by simpa using h)
      · rfl
    rw [hclose]
    refine ⟨by rw [hlim], by rw [hblocks], le_refl _, ?_⟩
    refine ⟨hInv.bsPos, hInv2.blocksGood, hInv2.spareGood, hInv2.spareNotIn,
      hInv2.freshGood, hInv2.nodup, ?_, ?_⟩
    · intro h
      obtain ⟨h1, h2⟩ := hInv.emptyState (by rw [← hblocks]; exact h)
      exact ⟨by show st2.current.limit = 0; rw [hlim, h1], by show st.current.next = 0; exact h2⟩
    · intro l hl
      obtain ⟨h1, h2, h3⟩ := hInv.lastState l (by rw [← hblocks]; exact hl)
      exact ⟨by show st2.current.limit = l + bs; rw [hlim, h1],
        by show l < st.current.next; exact h2,
        by show st.current.next ≤ st2.current.limit; rw [hlim]; exact h3⟩
  case neg =>
    have hextrane : extra ≠ [] := by
      intro hx
      subst hx
      rw [List.append_nil] at hblocks
      cases hlb : st.impl.blocks.getLast? with
      | none =>
        have hnil : st.impl.blocks = [] := List.getLast?_eq_none_iff.mp hlb
        obtain ⟨h01, _⟩ := hInv.emptyState hnil
        obtain ⟨h21, _⟩ := hInv2.emptyState (by rw [hblocks]; exact hnil)
        exact hlim (by rw [h21, h01])
      | some l0 =>
        obtain ⟨h01, _, _⟩ := hInv.lastState l0 hlb
        obtain ⟨h21, _, _⟩ := hInv2.lastState l0 (by rw [hblocks]; exact hlb)
        exact hlim (by rw [h21, h01])
    obtain ⟨e, t2, hx⟩ : ∃ e t2, extra = e :: t2 := by
      cases extra with
      | nil => exact absurd rfl hextrane
      | cons e t2 => exact ⟨e, t2, rfl⟩
    subst hx
    have hdisj : st.impl.blocks.Disjoint (e :: t2) := by
      have hn := hInv2.nodup
      rw [hblocks] at hn
      exact List.disjoint_of_nodup_append hn
    have hsep : ∀ x ∈ e :: t2,
        ¬(x ≤ st.current.limit ∧ st.current.limit ≤ x + bs) := by
      intro x hx2
      have hxmem : x ∈ st2.impl.blocks := by
        rw [hblocks]; exact List.mem_append.mpr (Or.inr hx2)
      obtain ⟨hxg, _⟩ := hInv2.blocksGood x hxmem
      cases hlb : st.impl.blocks.getLast? with
      | none =>
        have hnil : st.impl.blocks = [] := List.getLast?_eq_none_iff.mp hlb
        obtain ⟨h01, _⟩ := hInv.emptyState hnil
        obtain ⟨k, hk⟩ := hxg
        rw [h01]
        omega
      | some l0 =>
        obtain ⟨h01, _, _⟩ := hInv.lastState l0 hlb
        have hmem0 : l0 ∈ st.impl.blocks := List.mem_of_mem_getLast? hlb
        obtain ⟨hl0g, _⟩ := hInv.blocksGood l0 hmem0
        have hxne : x ≠ l0 := by
          intro h
          subst h
          exact hdisj hmem0 hx2
        have hs := goodAddr_separated bs x l0 hxg hl0g hxne
        rw [h01]
        omega
    obtain ⟨hb3, hs3, hf3⟩ := implDelete_restore bs st.current.limit st2.impl
      st.impl.blocks t2 e hblocks hsep (delExtRev_stop_of_inv bs st hInv)
    have hclose : closeScope bs st.current st2 =
        { current := { next := st.current.next, limit := st.current.limit,
                       level := st.current.level },
          impl := (implDeleteExtensions bs st.current.limit st2.impl).1,
          apiFailure := st2.apiFailure } := by
      simp only [closeScope, DeleteExtensions]
      split
      · rfl
      · rename_i h
        exact absurd (by simpa using h) hlim
    rw [hclose]
    have hemem : e ∈ st2.impl.blocks := by
      rw [hblocks]; exact List.mem_append.mpr (Or.inr (by simp))
    refine ⟨rfl, hb3, by rw [hf3], ?_⟩
    refine ⟨hInv.bsPos, ?_, ?_, ?_, ?_, ?_, ?_, ?_⟩
    · intro b hb
      rw [hb3] at hb
      have : b ∈ st2.impl.blocks := by
        rw [hblocks]; exact List.mem_append.mpr (Or.inl hb)
      obtain ⟨hg, hlt⟩ := hInv2.blocksGood b this
      exact ⟨hg, by rw [hf3]; exact hlt⟩
    · intro b hb
      rw [hs3] at hb
      simp at hb
      subst hb
      obtain ⟨hg, hlt⟩ := hInv2.blocksGood b hemem
      exact ⟨hg, by rw [hf3]; exact hlt⟩
    · intro b hb
      rw [hs3] at hb
      simp at hb
      subst hb
      rw [hb3]
      intro hmem
      exact hdisj hmem (by simp)
    · show goodAddr bs (implDeleteExtensions bs st.current.limit st2.impl).1.freshCounter
      rw [hf3]
      exact hInv2.freshGood
    · show (implDeleteExtensions bs st.current.limit st2.impl).1.blocks.Nodup
      rw [hb3]
      exact List.Nodup.of_append_left (hblocks ▸ hInv2.nodup)
    · intro h
      rw [hb3] at h
      obtain ⟨h1, h2⟩ := hInv.emptyState h
      exact ⟨h1, h2⟩
    · intro l hl
      rw [hb3] at hl
      exact hInv.lastState l hl

theorem run_preserves (bs : Nat) (p : Prog) :
    ∀ st : State, Inv bs st → 0 < st.current.level →
    Inv bs (run bs p st) ∧
    (run bs p st).current.level = st.current.level ∧
    (∃ extra, (run bs p st).impl.blocks = st.impl.blocks ++ extra) ∧
    st.impl.freshCounter ≤ (run bs p st).impl.freshCounter := by
  induction p with
  | done =>
    intro st h1 _
    exact ⟨h1, rfl, ⟨[], (List.append_nil _).symm⟩, le_refl _⟩
  | handle rest ih =>
    intro st h1 h2
    obtain ⟨hInvA, hlvlA, ⟨e1, he1⟩, hfcA⟩ := createHandle_preserves bs st h1 h2
    obtain ⟨hInvB, hlvlB, ⟨e2, he2⟩, hfcB⟩ :=
      ih (CreateHandle bs st).2 hInvA (by rw [hlvlA]; exact h2)
    refine ⟨hInvB, ?_, ⟨e1 ++ e2, ?_⟩, le_trans hfcA hfcB⟩
    · show (run bs rest (CreateHandle bs st).2).current.level = _
      rw [hlvlB, hlvlA]
    · show (run bs rest (CreateHandle bs st).2).impl.blocks = _
      rw [he2, he1, List.append_assoc]
  | scope body rest ihb ihr =>
    intro st h1 h2
    have hInvOpen : Inv bs (openScope st).2 := openScope_inv bs st h1
    have hlvlOpen : 0 < (openScope st).2.current.level := by
      show 0 < st.current.level + 1
      omega
    obtain ⟨hInv2, _, ⟨extra, hex⟩, hfc2⟩ := ihb (openScope st).2 hInvOpen hlvlOpen
    obtain ⟨hcur3, hblocks3, hfc3, hInv3⟩ :=
      closeScope_restore bs st (run bs body (openScope st).2) extra h1 hInv2 hex
    obtain ⟨hInv4, hlvl4, ⟨e4, he4⟩, hfc4⟩ :=
      ihr (closeScope bs st.current (run bs body (openScope st).2)) hInv3
        (by rw [hcur3]; exact h2)
    refine ⟨hInv4, ?_, ⟨e4, ?_⟩, ?_⟩
    · show (run bs rest
        (closeScope bs st.current (run bs body (openScope st).2))).current.level = _
      rw [hlvl4, hcur3]
    · show (run bs rest
        (closeScope bs st.current (run bs body (openScope st).2))).impl.blocks = _
      rw [he4, hblocks3]
    · show st.impl.freshCounter ≤ (run bs rest
        (closeScope bs st.current (run bs body (openScope st).2))).impl.freshCounter
      exact le_trans hfc2 (le_trans hfc3 hfc4)

/-- C6: the nesting invariant — for any well-nested (LIFO) sequence of scope
opens, handle creations via `Extend`, and closes (`DeleteExtensions` plus
scope-state restore), `NumberOfHandles` after the outermost scope closes
equals its value before that scope opened: every slot allocated inside the
scope is reclaimed. -/
theorem nesting_invariant (bs : Nat) (body : Prog) (st : State)
    (hInv : Inv bs st) :
    NumberOfHandles bs (run bs (Prog.scope body Prog.done) st) =
      NumberOfHandles bs st := by
  have hInvOpen : Inv bs (openScope st).2 := openScope_inv bs st hInv
  have hlvlOpen : 0 < (openScope st).2.current.level := by
    show 0 < st.current.level + 1
    omega
  obtain ⟨hInv2, _, ⟨extra, hex⟩, _⟩ :=
    run_preserves bs body (openScope st).2 hInvOpen hlvlOpen
  obtain ⟨hcur3, hblocks3, _, _⟩ :=
    closeScope_restore bs st (run bs body (openScope st).2) extra hInv hInv2 hex
  show NumberOfHandles bs
      (closeScope bs st.current (run bs body (openScope st).2)) =
    NumberOfHandles bs st
  unfold NumberOfHandles
  rw [hblocks3, hcur3]

theorem nesting_invariant_witness :
    NumberOfHandles 4
        (run 4 (Prog.scope (Prog.handle (Prog.handle Prog.done)) Prog.done)
          initState) =
      NumberOfHandles 4 initState :=
  nesting_invariant 4 (Prog.handle (Prog.handle Prog.done)) initState
    ⟨by decide,
     by intro b hb; simp [initState] at hb,
     by intro b hb; simp [initState] at hb,
     by intro b hb; simp [initState] at hb,
     ⟨0, by decide⟩,
     by simp [initState],
     fun _ => ⟨rfl, rfl⟩,
     by intro l hl; simp [initState] at hl⟩

end Handles
